import Mathlib

/-!
Verification of the mdout parser (read_mdout.py).

The Python source is shallowly embedded below.  Lines of the input file are
modelled as a `List String` (each entry one line without its trailing newline;
end of the list models end of stream, where readline returns the falsy empty
string).  Python dictionaries become insertion-ordered association lists,
numpy arrays become `List PyVal`, and every fallible Python operation
(int()/float() conversion, tuple unpacking, deque popleft on an empty deque,
dictionary / array indexing, assert) returns `Except Err`.

Uninitialised numpy.empty storage is modelled by the placeholder value
`PyVal.uninit`; real numpy garbage is arbitrary, the placeholder stands for
one fixed arbitrary content.  numpy.resize repeats the array cyclically when
growing, which is modelled exactly.  int(nblocks*1.5) is modelled as
nblocks*3/2 in natural division, which agrees with the float computation for
all block counts below 2^52.
-/

deriving instance DecidableEq for Except

namespace ReadMdout

/-! ## Character classes (Python 2 str semantics, ASCII) -/

def isPySpace (c : Char) : Bool :=
  c = ' ' || c = '\t' || c = '\n' || c = '\r' || c = '\x0b' || c = '\x0c'

def isPyDigit (c : Char) : Bool := '0' ≤ c && c ≤ '9'

def isAsciiAlpha (c : Char) : Bool :=
  ('A' ≤ c && c ≤ 'Z') || ('a' ≤ c && c ≤ 'z')

/-- in-operator on the characters of a line -/
def strContains (s : String) (c : Char) : Bool := s.data.contains c

/-- str.startswith -/
def strStartsWith (s pre : String) : Bool := pre.data.isPrefixOf s.data

def stripLead (l : List Char) : List Char := l.dropWhile isPySpace

def stripTrail (l : List Char) : List Char := (l.reverse.dropWhile isPySpace).reverse

/-- Python str.strip() -/
def pyStrip (l : List Char) : List Char := stripLead (stripTrail l)

def pyLower (s : String) : String := ⟨s.data.map Char.toLower⟩

/-- substring test (case handled by the caller) -/
def hasSub (pat : List Char) : List Char → Bool
  | [] => pat.isEmpty
  | c :: rest => pat.isPrefixOf (c :: rest) || hasSub pat rest

/-! ## Values, errors, configuration -/

/-- The typed scalars the parser produces.  vFloat keeps the raw token that
float() accepted; the numeric value itself is never compared by the claims
(the summary check compares NSTEP values, which are integers). -/
inductive PyVal where
  | vInt (n : Int)
  | vFloat (tok : String)
  | vBool (b : Bool)
  | vStr (s : String)
  | uninit
deriving DecidableEq, Repr

/-- Failure kinds of the embedded Python code.  The source has no exception
classes of its own; these name the runtime errors it can raise. -/
inductive Err where
  | malformedPair
  | valueError
  | keyError (k : String)
  | indexError
  | assertError
  | nonTermination
deriving DecidableEq, Repr

inductive PyType where
  | tInt
  | tFloat
deriving DecidableEq, Repr

/-- Insertion-ordered dictionary, as the Python dicts are used here. -/
abbrev Dict (α : Type) := List (String × α)

def dictLookup {α : Type} : Dict α → String → Option α
  | [], _ => none
  | (k, v) :: d, key => if k = key then some v else dictLookup d key

def dictInsert {α : Type} : Dict α → String → α → Dict α
  | [], key, v => [(key, v)]
  | (k, w) :: d, key, v =>
    if k = key then (k, v) :: d else (k, w) :: dictInsert d key v

def dictKeys {α : Type} (d : Dict α) : List String := d.map Prod.fst

/-- Python dict.update -/
def dictUpdate {α : Type} (d : Dict α) (upd : Dict α) : Dict α :=
  upd.foldl (fun acc p => dictInsert acc p.1 p.2) d

/-- Configuration of MDOutParser.__init__ (block_start, default_type,
type_overrides). -/
structure Cfg where
  block_start : String
  default_type : PyType
  type_overrides : Dict PyType
deriving DecidableEq, Repr

/-- The class defaults: block_start = " NSTEP", default_type = float,
type_overrides = {NSTEP: int}. -/
def defaultCfg : Cfg := ⟨" NSTEP", .tFloat, [("NSTEP", .tInt)]⟩

def initial_chunksize : Nat := 128

/-! ## Python numeric literal parsing -/

def digitsToNat (l : List Char) : Nat :=
  l.foldl (fun n c => n * 10 + (c.toNat - '0'.toNat)) 0

/-- Python 2 int(str): optional surrounding whitespace, optional sign,
one or more ASCII digits. -/
def pyInt (s : String) : Option Int :=
  let t := pyStrip s.data
  let signDs : Int × List Char :=
    match t with
    | '+' :: r => (1, r)
    | '-' :: r => (-1, r)
    | r => (1, r)
  if signDs.2 ≠ [] ∧ signDs.2.all isPyDigit then
    some (signDs.1 * (digitsToNat signDs.2 : Int))
  else none

def expOk : List Char → Bool
  | [] => true
  | e :: r =>
    (e = 'e' || e = 'E') &&
      (let r2 := match r with
        | '+' :: x => x
        | '-' :: x => x
        | x => x
       !r2.isEmpty && r2.all isPyDigit)

/-- Does Python float(s) succeed?  Grammar: optional whitespace and sign,
then inf / infinity / nan (case-insensitive) or a decimal literal
digits* [. digits*] (at least one digit) with optional exponent. -/
def isPyFloat (s : String) : Bool :=
  let t0 := pyStrip s.data
  let t := match t0 with
    | '+' :: r => r
    | '-' :: r => r
    | r => r
  let low := t.map Char.toLower
  if low = "inf".data || low = "infinity".data || low = "nan".data then true
  else
    let ip := t.takeWhile isPyDigit
    let rest1 := t.drop ip.length
    match rest1 with
    | '.' :: r =>
      let fp := r.takeWhile isPyDigit
      (!ip.isEmpty || !fp.isEmpty) && expOk (r.drop fp.length)
    | rest => !ip.isEmpty && expOk rest

/-! ## The line-classifying regexes -/

/-- Model of a prefix match of the pattern three-spaces digits dot.
Returns the remainder of the line after the matched header prefix. -/
def matchIntDot (l : List Char) : Option (List Char) :=
  match l with
  | ' ' :: ' ' :: ' ' :: rest =>
    let ds := rest.takeWhile isPyDigit
    if ds.isEmpty then none
    else
      match rest.drop ds.length with
      | '.' :: r => some r
      | _ => none
  | _ => none

def re_new_section (s : String) : Bool := (matchIntDot s.data).isSome

def re_sim_params_begin (s : String) : Bool :=
  match matchIntDot s.data with
  | some r => "  CONTROL  DATA  FOR  THE  RUN".data.isPrefixOf r
  | none => false

def re_time_series_begin (s : String) : Bool :=
  match matchIntDot s.data with
  | some r => "  RESULTS".data.isPrefixOf r
  | none => false

/-- re_is_float.search: the token contains a dot or the substring inf or nan,
case-insensitively. -/
def re_is_float_search (s : String) : Bool :=
  let low := s.data.map Char.toLower
  hasSub ['.'] low || hasSub "inf".data low || hasSub "nan".data low

/-- re_is_bool.match: anchored at the start only, so this is a prefix test
for true or false, case-insensitively. -/
def re_is_bool_match (s : String) : Bool :=
  let low := s.data.map Char.toLower
  "true".data.isPrefixOf low || "false".data.isPrefixOf low

/-! ## re_split_pair / re_space_equals

re.split on a pattern of optional whitespace, an equals sign, optional
whitespace: equivalently, split on the equals character and strip the
whitespace adjacent to each separator (outer whitespace of the first and
last segment survives).  re_space_equals.sub replaces each such match by
one space-equals-space, i.e. it rejoins the same segments. -/

def splitOnChar (ch : Char) : List Char → List (List Char)
  | [] => [[]]
  | c :: rest =>
    if c = ch then [] :: splitOnChar ch rest
    else
      match splitOnChar ch rest with
      | [] => [[c]]
      | s :: ss => (c :: s) :: ss

def adjTail : List (List Char) → List (List Char)
  | [] => []
  | [x] => [stripLead x]
  | x :: xs => stripLead (stripTrail x) :: adjTail xs

def re_split_pair (l : List Char) : List (List Char) :=
  match splitOnChar '=' l with
  | [] => []
  | [x] => [x]
  | x :: xs => stripTrail x :: adjTail xs

def intercalateChars (sep : List Char) : List (List Char) → List Char
  | [] => []
  | [x] => x
  | x :: xs => x ++ sep ++ intercalateChars sep xs

def re_space_equals_sub (l : List Char) : List Char :=
  intercalateChars " = ".data (re_split_pair l)

/-! ## re_split_line tokenisation for the parameter section

re.split on comma-with-whitespace or whitespace, then str.strip and filter
out empties: equivalently, the maximal runs of characters that are neither
whitespace nor commas. -/

def isFieldSep (c : Char) : Bool := isPySpace c || c = ','

def fieldsGo : List Char → List Char → List String
  | cur, [] => if cur.isEmpty then [] else [⟨cur.reverse⟩]
  | cur, c :: rest =>
    if isFieldSep c then
      if cur.isEmpty then fieldsGo [] rest
      else (⟨cur.reverse⟩ : String) :: fieldsGo [] rest
    else fieldsGo (c :: cur) rest

def splitFields (l : List Char) : List String := fieldsGo [] l

/-! ## _parse_keyvalue_line -/

def joinSpace : List String → String
  | [] => ""
  | [x] => x
  | x :: xs => x ++ " " ++ joinSpace xs

/-- Accumulate key fields until the literal equals token; popleft from an
exhausted deque is an IndexError, modelled as malformedPair. -/
def splitAtEq : String → List String → Except Err (List String × List String)
  | f, fs =>
    if f = "=" then .ok ([], fs)
    else
      match fs with
      | [] => .error .malformedPair
      | g :: gs => do
        let r ← splitAtEq g gs
        pure (f :: r.1, r.2)

def kvFieldsGo : Nat → List String → Except Err (List (String × String))
  | _, [] => .ok []
  | 0, _ => .error .nonTermination
  | fuel + 1, f :: fs =>
    if strStartsWith f "(" then .ok []
    else do
      let r ← splitAtEq f fs
      match r.2 with
      | [] => .error .malformedPair
      | v :: rest2 => do
        let more ← kvFieldsGo fuel rest2
        pure ((joinSpace r.1, v) :: more)

def parse_keyvalue_line (line : String) : Except Err (List (String × String)) :=
  if strContains line '=' then
    let fields := splitFields (re_space_equals_sub line.data)
    kvFieldsGo (fields.length + 1) fields
  else .ok []

/-! ## _make_keyvalue_dict (the type inferencer) -/

def infer_value (vtext : String) : Except Err PyVal :=
  if re_is_float_search vtext then
    if isPyFloat vtext then .ok (.vFloat vtext) else .error .valueError
  else if re_is_bool_match vtext then
    .ok (.vBool (pyLower vtext = "true"))
  else
    match pyInt vtext with
    | some n => .ok (.vInt n)
    | none => .ok (.vStr vtext)

def kvStep (d : Dict PyVal) (p : String × String) : Except Err (Dict PyVal) :=
  if strStartsWith p.1 "|" then pure d
  else do
    let v ← infer_value p.2
    pure (dictInsert d p.1 v)

def make_keyvalue_dict (pairs : List (String × String)) : Except Err (Dict PyVal) :=
  pairs.foldlM kvStep []

/-! ## re_split_timeseries_line

Pattern: after a digit whose predecessor is neither a hyphen nor a letter,
consume optional whitespace, an optional comma, optional whitespace.
Python 2 re.split skips zero-width matches, so a split only happens when at
least one whitespace or comma character is consumed.  The scanner below
walks the line left to right; pre holds the already consumed characters in
reverse (giving the lookbehind), cur the current segment in reverse.  The
second component records the positions at which splits fired.  The fuel is
one unit per consumed character, so fuel at least the remaining length means
the fallback arm is unreachable. -/

/-- Greedy match length of whitespace, optional comma, whitespace. -/
def wsCommaLen (l : List Char) : Nat :=
  let w1 := (l.takeWhile isPySpace).length
  match l.drop w1 with
  | ',' :: r2 => w1 + 1 + (r2.takeWhile isPySpace).length
  | _ => w1

/-- The lookbehind: last consumed char is a digit not preceded by a hyphen
or an ASCII letter. -/
def splitOk : List Char → Bool
  | [] => false
  | d :: pre =>
    isPyDigit d &&
      (match pre with
       | [] => true
       | c :: _ => !(c = '-' || isAsciiAlpha c))

def tsSplitGo : Nat → List Char → List Char → List Char → Nat →
    List (List Char) × List Nat
  | _, _, cur, [], _ => ([cur.reverse], [])
  | 0, _, cur, rest, _ => ([cur.reverse ++ rest], [])
  | fuel + 1, pre, cur, c :: rest, pos =>
    let k := wsCommaLen (c :: rest)
    if splitOk pre && decide (0 < k) then
      let d := (c :: rest).take k
      let r := tsSplitGo fuel (d.reverse ++ pre) [] ((c :: rest).drop k) (pos + k)
      (cur.reverse :: r.1, pos :: r.2)
    else
      tsSplitGo fuel (c :: pre) (c :: cur) rest (pos + 1)

def tsSplitRaw (s : List Char) : List (List Char) × List Nat :=
  tsSplitGo s.length [] [] s 0

def re_split_timeseries_line (s : List Char) : List String :=
  (tsSplitRaw s).1.map (fun l => (⟨l⟩ : String))

def tsSplitPoints (s : List Char) : List Nat := (tsSplitRaw s).2

/-! ## _parse_timeseries -/

/-- key, vtext = re_split_pair.split(pairtext.strip()): unpacking anything
but exactly two parts raises ValueError. -/
def splitPairExact (seg : String) : Except Err (String × String) :=
  match re_split_pair (pyStrip seg.data) with
  | [k, v] => .ok ((⟨k⟩ : String), (⟨v⟩ : String))
  | _ => .error .valueError

/-- One block line: split at digit boundaries, then each piece about its
equals sign. -/
def parseBlockLine (line : String) : Except Err (List (String × String)) :=
  (re_split_timeseries_line (pyStrip line.data)).mapM splitPairExact

/-- type_overrides.get(key, default_type)(vtext) -/
def convertValue (cfg : Cfg) (key vtext : String) : Except Err PyVal :=
  match (dictLookup cfg.type_overrides key).getD cfg.default_type with
  | .tInt =>
    match pyInt vtext with
    | some n => .ok (.vInt n)
    | none => .error .valueError
  | .tFloat =>
    if isPyFloat vtext then .ok (.vFloat vtext) else .error .valueError

/-- The inner while-loop of _parse_timeseries: consume lines while they
contain an equals sign, merging converted pairs into blockvars.  End of
stream terminates the block exactly like a line without an equals sign. -/
def blockPairStep (cfg : Cfg) (b : Dict PyVal) (p : String × String) :
    Except Err (Dict PyVal) := do
  let v ← convertValue cfg p.1 p.2
  pure (dictInsert b p.1 v)

/-- blockvars accumulated over one line of a block. -/
def blockLineStep (cfg : Cfg) (bv : Dict PyVal) (l : String) :
    Except Err (Dict PyVal) := do
  let pairs ← parseBlockLine l
  pairs.foldlM (blockPairStep cfg) bv

def readBlock (cfg : Cfg) (bv : Dict PyVal) : List String →
    Except Err (Dict PyVal × List String)
  | [] => .ok (bv, [])
  | l :: rest =>
    if strContains l '=' then do
      let bv2 ← blockLineStep cfg bv l
      readBlock cfg bv2 rest
    else .ok (bv, l :: rest)

/-- numpy.resize: truncate, or repeat the data cyclically when growing. -/
def npResize (l : List PyVal) (n : Nat) : List PyVal :=
  if l.isEmpty then List.replicate n PyVal.uninit
  else (List.range n).map (fun i => l.getD (i % l.length) PyVal.uninit)

/-- array[i] = v; out of range raises IndexError. -/
def setSlot (l : List PyVal) (i : Nat) (v : PyVal) : Except Err (List PyVal) :=
  if i < l.length then .ok (l.set i v) else .error .indexError

/-- Resize pass of the merge: arrays exactly at capacity grow to
int(nblocks * 1.5). -/
def growIfFull (nblocks : Nat) (arr : List PyVal) : List PyVal :=
  if arr.length = nblocks then npResize arr (nblocks * 3 / 2) else arr

/-- Merging a finished block into the aggregate arrays (lines 258-272 of the
source).  After the first block, assigning a key that has no array raises
KeyError; for the first block, arrays of length initial chunksize are
created and slot 0 is written. -/
def assignStep (nblocks : Nat) (vs : Dict (List PyVal)) (p : String × PyVal) :
    Except Err (Dict (List PyVal)) :=
  match dictLookup vs p.1 with
  | none => .error (.keyError p.1)
  | some arr => do
    let arr2 ← setSlot arr nblocks p.2
    pure (dictInsert vs p.1 arr2)

def createStep (chunk : Nat) (vs : Dict (List PyVal)) (p : String × PyVal) :
    Except Err (Dict (List PyVal)) := do
  let a0 ← setSlot (List.replicate chunk PyVal.uninit) 0 p.2
  pure (dictInsert vs p.1 a0)

def mergeBlock (chunk : Nat) (vars : Dict (List PyVal)) (nblocks : Nat)
    (bv : Dict PyVal) : Except Err (Dict (List PyVal)) :=
  if 0 < nblocks then
    bv.foldlM (assignStep nblocks) (vars.map (fun p => (p.1, growIfFull nblocks p.2)))
  else
    bv.foldlM (createStep chunk) []

/-- The outer while-loop of _parse_timeseries.  An iteration that consumes
no line (a block-start line without an equals sign) loops forever in the
source; the fuel models that divergence as an error.  Every input whose
block-start lines contain an equals sign terminates within length-many
iterations. -/
def tsLoop (cfg : Cfg) (chunk : Nat) : Nat → Dict (List PyVal) → Nat →
    List String → Except Err (Dict (List PyVal) × Nat × List String)
  | _, vars, nblocks, [] => .ok (vars, nblocks, [])
  | 0, _, _, _ :: _ => .error .nonTermination
  | fuel + 1, vars, nblocks, l :: rest =>
    if re_new_section l then .ok (vars, nblocks, l :: rest)
    else if strStartsWith l cfg.block_start then do
      let br ← readBlock cfg [] (l :: rest)
      let vars2 ← mergeBlock chunk vars nblocks br.1
      tsLoop cfg chunk fuel vars2 (nblocks + 1) br.2
    else tsLoop cfg chunk fuel vars nblocks rest

/-- Trim every array to the number of completed blocks. -/
def trimVars (vars : Dict (List PyVal)) (nblocks : Nat) : Dict (List PyVal) :=
  vars.map (fun p => (p.1, npResize p.2 nblocks))

/-- array[-k]; negative index out of range raises IndexError. -/
def negIndex (l : List PyVal) (k : Nat) : Except Err PyVal :=
  if k ≤ l.length then .ok (l.getD (l.length - k) PyVal.uninit)
  else .error .indexError

/-- One variable of the summary loop: record array[-2] as the average and
array[-1] as the RMS fluctuation, then drop the last two entries. -/
def summaryStep (acc : Dict (List PyVal) × Dict PyVal × Dict PyVal)
    (p : String × List PyVal) :
    Except Err (Dict (List PyVal) × Dict PyVal × Dict PyVal) := do
  let av ← negIndex p.2 2
  let rm ← negIndex p.2 1
  pure (acc.1 ++ [(p.1, npResize p.2 (p.2.length - 2))],
        acc.2.1 ++ [(p.1, av)], acc.2.2 ++ [(p.1, rm)])

/-- Lines 282-289: the summary extraction.  The counting key NSTEP is
hardcoded; a missing key raises KeyError, fewer than three entries raise
IndexError from the negative indexing. -/
def extractSummary (vars : Dict (List PyVal)) :
    Except Err (Dict (List PyVal) × Dict PyVal × Dict PyVal) :=
  match dictLookup vars "NSTEP" with
  | none => .error (.keyError "NSTEP")
  | some nstep => do
    let a ← negIndex nstep 3
    let b ← negIndex nstep 2
    let c ← negIndex nstep 1
    if a = b ∧ b = c then vars.foldlM summaryStep ([], [], [])
    else pure (vars, [], [])

structure TSResult where
  time_series : Dict (List PyVal)
  time_series_averages : Dict PyVal
  time_series_rmsds : Dict PyVal
  rest : List String
deriving DecidableEq, Repr

/-- _parse_timeseries: the stream is positioned at the RESULTS header
(asserted), then the block loop, trimming, and summary extraction run. -/
def parse_timeseries (cfg : Cfg) (chunk : Nat) : List String → Except Err TSResult
  | [] => .error .assertError
  | l :: rest =>
    if re_time_series_begin l then do
      let r ← tsLoop cfg chunk (rest.length + 1) [] 0 rest
      let trimmed := trimVars r.1 r.2.1
      let s ← extractSummary trimmed
      pure ⟨s.1, s.2.1, s.2.2, r.2.2⟩
    else .error .assertError

/-! ## _parse_sim_params -/

/-- Processing of one candidate line of the parameter section. -/
def lineUpdate (vars : Dict PyVal) (l : String) : Except Err (Dict PyVal) :=
  if strContains l '=' then do
    let pairs ← parse_keyvalue_line l
    let kv ← make_keyvalue_dict pairs
    pure (dictUpdate vars kv)
  else pure vars

/-- The loop of _parse_sim_params.  The loop tests the current line, then
reads and processes the next line; hence the line it starts on is never
examined for an equals sign, and the terminating header line is examined
before the loop stops on it. -/
def simLoop : Dict PyVal → List String → Except Err (Dict PyVal × List String)
  | vars, [] => .ok (vars, [])
  | vars, [l] => if re_new_section l then .ok (vars, [l]) else .ok (vars, [])
  | vars, l :: l2 :: rest2 =>
    if re_new_section l then .ok (vars, l :: l2 :: rest2)
    else do
      let vars2 ← lineUpdate vars l2
      simLoop vars2 (l2 :: rest2)

/-- _parse_sim_params: asserts the stream is at the parameter section
header, then runs the loop on the following lines. -/
def parse_sim_params : List String → Except Err (Dict PyVal × List String)
  | [] => .error .assertError
  | l :: rest =>
    if re_sim_params_begin l then simLoop [] rest else .error .assertError

/-! ## parse -/

def discardUntil (p : String → Bool) : List String → List String
  | [] => []
  | l :: rest => if p l then l :: rest else discardUntil p rest

structure ParseResult where
  simulation_params : Dict PyVal
  ts : TSResult
deriving DecidableEq, Repr

def parseMdout (cfg : Cfg) (chunk : Nat) (lines : List String) :
    Except Err ParseResult := do
  let r1 := discardUntil re_sim_params_begin lines
  let pr ← parse_sim_params r1
  let r3 := discardUntil re_time_series_begin pr.2
  let t ← parse_timeseries cfg chunk r3
  pure ⟨pr.1, t⟩

/-- The RESULTS-section parse with the source defaults. -/
def parseTS (lines : List String) : Except Err TSResult :=
  parse_timeseries defaultCfg initial_chunksize lines

/-! ## Concrete inputs used to settle the claims -/

def tsHeader : String := "   4.  RESULTS"

/-- The block terminator: any line without an equals sign that is neither a
section header nor a block start. -/
def termLine : String := "----"

def inpTwoBlocks : List String :=
  [tsHeader, " NSTEP = 100 A = 1.5", termLine, " NSTEP = 200 A = 2.5", termLine]

def inpMissingKey : List String :=
  [tsHeader, " NSTEP = 1 A = 2.5", termLine, " NSTEP = 2", termLine,
   " NSTEP = 3 A = 4.5", termLine]

def inpNewKey : List String :=
  [tsHeader, " NSTEP = 1 A = 2.5", termLine, " NSTEP = 2 A = 3.5 B = 9.5", termLine,
   " NSTEP = 3 A = 4.5", termLine]

def inpOpenBlock : List String :=
  [tsHeader, " NSTEP = 1 A = 2.5", termLine, " NSTEP = 2 A = 3.5", termLine,
   " NSTEP = 3 A = 4.5"]

def inpMalformedBlock : List String :=
  [tsHeader, " NSTEP = 1 A = 2.5", " BOND = ", termLine]

def inpParamsSkip : List String :=
  ["   1.  CONTROL  DATA  FOR  THE  RUN", "foo = 42", "bar = 7", "   2.  NEXT"]

/-! ## Rendered-block inputs and loop invariants -/

/-- A rendered block: the text lines of one block paired with the blockvars
they parse and convert to. -/
def GoodBlock (cfg : Cfg) (b : List String × Dict PyVal) : Prop :=
  b.1 ≠ [] ∧
  strStartsWith b.1.headI cfg.block_start = true ∧
  re_new_section b.1.headI = false ∧
  (∀ l ∈ b.1, strContains l '=' = true) ∧
  b.1.foldlM (blockLineStep cfg) [] = .ok b.2

instance (cfg : Cfg) (b : List String × Dict PyVal) : Decidable (GoodBlock cfg b) := by
  unfold GoodBlock
  infer_instance

/-- Block groups laid out in the stream: each group of block lines is
followed by one terminator line. -/
def renderBlocks (bs : List (List String)) : List String :=
  bs.foldr (fun b acc => b ++ termLine :: acc) []

/-- The state evolution of the outer loop over a list of finished blocks. -/
def mergeAll (chunk : Nat) : Dict (List PyVal) × Nat → List (Dict PyVal) →
    Except Err (Dict (List PyVal) × Nat)
  | s, [] => .ok s
  | s, bv :: bvs => do
    let v2 ← mergeBlock chunk s.1 s.2 bv
    mergeAll chunk (v2, s.2 + 1) bvs

/-- Invariant carried through the outer loop: before any block the variable
dictionary is empty; afterwards its key list is the first block key list and
every array is long enough for the next write. -/
def VarInv (chunk : Nat) (K : List String) (vars : Dict (List PyVal)) (n : Nat) : Prop :=
  (n = 0 → vars = []) ∧
  (0 < n → dictKeys vars = K ∧ ∀ p ∈ vars, n ≤ p.2.length ∧ chunk ≤ p.2.length)

/-- Four single-line blocks over the key list NSTEP, A, used to witness the
block-count theorems with a small initial capacity. -/
def c1Blocks : List (List String × Dict PyVal) :=
  [([" NSTEP = 100 A = 1.5"], [("NSTEP", .vInt 100), ("A", .vFloat "1.5")]),
   ([" NSTEP = 200 A = 2.5"], [("NSTEP", .vInt 200), ("A", .vFloat "2.5")]),
   ([" NSTEP = 300 A = 3.5"], [("NSTEP", .vInt 300), ("A", .vFloat "3.5")]),
   ([" NSTEP = 400 A = 4.5"], [("NSTEP", .vInt 400), ("A", .vFloat "4.5")])]

def c10OneBlock : List (List String × Dict PyVal) :=
  [([" NSTEP = 100 A = 1.5"], [("NSTEP", .vInt 100), ("A", .vFloat "1.5")])]

/-- A parser configured with a block-start marker other than NSTEP. -/
def fooCfg : Cfg := ⟨" FOO", .tFloat, [("FOO", .tInt)]⟩

def fooBlocks : List (List String × Dict PyVal) :=
  [([" FOO = 1 A = 1.5"], [("FOO", .vInt 1), ("A", .vFloat "1.5")]),
   ([" FOO = 2 A = 2.5"], [("FOO", .vInt 2), ("A", .vFloat "2.5")]),
   ([" FOO = 3 A = 3.5"], [("FOO", .vInt 3), ("A", .vFloat "3.5")])]

def wsComma (c : Char) : Bool := isPySpace c || c = ','

/-- The conditions holding at every split position of the digit-boundary
splitter: the preceding character is a digit, the character before that (if
any) is neither a hyphen nor a letter, and the character at the position is
whitespace or a comma. -/
def splitPointSpec (orig : List Char) (i : Nat) : Prop :=
  (∃ d, orig[i - 1]? = some d ∧ isPyDigit d = true) ∧
  (∀ c, 2 ≤ i → orig[i - 2]? = some c → ¬(c = '-' ∨ isAsciiAlpha c = true)) ∧
  (∃ w, orig[i]? = some w ∧ wsComma w = true)

/-! ## Dictionary lemmas -/

theorem dictKeys_insert_mem {α : Type} (d : Dict α) (k : String) (v : α)
    (h : k ∈ dictKeys d) : dictKeys (dictInsert d k v) = dictKeys d := by
  induction d with
  | nil => simp [dictKeys] at h
  | cons q d ih =>
    obtain ⟨k1, w⟩ := q
    by_cases hk : k1 = k
    · simp [dictInsert, hk, dictKeys]
    · simp only [dictKeys, List.map_cons, List.mem_cons] at h
      rcases h with h1 | h1
      · exact absurd h1.symm hk
      · simp only [dictInsert, if_neg hk, dictKeys, List.map_cons]
        simp only [dictKeys] at ih
        rw [ih h1]

theorem dictKeys_insert_new {α : Type} (d : Dict α) (k : String) (v : α)
    (h : k ∉ dictKeys d) : dictKeys (dictInsert d k v) = dictKeys d ++ [k] := by
  induction d with
  | nil => simp [dictInsert, dictKeys]
  | cons q d ih =>
    obtain ⟨k1, w⟩ := q
    simp only [dictKeys, List.map_cons, List.mem_cons] at h
    push_neg at h
    have hk : ¬ k1 = k := fun e => h.1 e.symm
    simp only [dictInsert, if_neg hk, dictKeys, List.map_cons]
    simp only [dictKeys] at ih
    rw [ih h.2]
    simp

theorem dictLookup_none_iff {α : Type} (d : Dict α) (k : String) :
    dictLookup d k = none ↔ k ∉ dictKeys d := by
  induction d with
  | nil => simp [dictLookup, dictKeys]
  | cons q d ih =>
    obtain ⟨k1, w⟩ := q
    by_cases hk : k1 = k
    · subst hk
      simp [dictLookup, dictKeys]
    · simp only [dictLookup, if_neg hk, dictKeys, List.map_cons, List.mem_cons]
      rw [ih]
      simp only [dictKeys]
      constructor
      · intro hnone hor
        rcases hor with h1 | h1
        · exact hk h1.symm
        · exact hnone h1
      · intro hnot h1
        exact hnot (Or.inr h1)

theorem mem_of_dictInsert {α : Type} (d : Dict α) (k : String) (v : α)
    (p : String × α) (h : p ∈ dictInsert d k v) : p = (k, v) ∨ p ∈ d := by
  induction d with
  | nil =>
    simp only [dictInsert, List.mem_singleton] at h
    left; exact h
  | cons q d ih =>
    obtain ⟨k1, w⟩ := q
    by_cases hk : k1 = k
    · subst hk
      simp only [dictInsert, eq_self_iff_true, if_true, List.mem_cons] at h
      rcases h with h1 | h1
      · left; exact h1
      · right; exact List.mem_cons_of_mem _ h1
    · simp only [dictInsert, if_neg hk, List.mem_cons] at h
      rcases h with h1 | h1
      · right; exact h1 ▸ List.mem_cons_self _ _
      · rcases ih h1 with h2 | h2
        · left; exact h2
        · right; exact List.mem_cons_of_mem _ h2

/-! ## C5 and C6: the type inferencer -/

/-- The inferencer is total on every token except a float-rule match that
float() rejects. -/
theorem infer_value_ok (v : String)
    (h : re_is_float_search v = true → isPyFloat v = true) :
    ∃ w, infer_value v = .ok w := by
  unfold infer_value
  by_cases hf : re_is_float_search v
  · rw [if_pos hf, if_pos (h hf)]
    exact ⟨_, rfl⟩
  · rw [if_neg hf]
    by_cases hb : re_is_bool_match v
    · rw [if_pos hb]; exact ⟨_, rfl⟩
    · rw [if_neg hb]
      cases pyInt v <;> exact ⟨_, rfl⟩

theorem make_keyvalue_dict_ok_aux (pairs : List (String × String))
    (h : ∀ p ∈ pairs, re_is_float_search p.2 = true → isPyFloat p.2 = true) :
    ∀ acc : Dict PyVal, ∃ d, pairs.foldlM kvStep acc = .ok d := by
  induction pairs with
  | nil => intro acc; exact ⟨acc, rfl⟩
  | cons p ps ih =>
    intro acc
    have hp := h p (by simp)
    have hps : ∀ q ∈ ps, re_is_float_search q.2 = true → isPyFloat q.2 = true :=
      fun q hq => h q (by simp [hq])
    rw [List.foldlM_cons]
    by_cases hbar : strStartsWith p.1 "|"
    · have : kvStep acc p = .ok acc := by
        simp only [kvStep, if_pos hbar]
        rfl
      rw [this]
      exact ih hps acc
    · obtain ⟨w, hw⟩ := infer_value_ok p.2 hp
      have : kvStep acc p = .ok (dictInsert acc p.1 w) := by
        simp [kvStep, hbar, hw, Except.bind]
      rw [this]
      exact ih hps (dictInsert acc p.1 w)

/-- C5: the claim that the type inferencer is total is false: when the
float rule matches (token contains a dot, inf or nan) but float() rejects
the token, a ValueError escapes.  The token info is such a counterexample. -/
theorem c5_totality_counterexample :
    make_keyvalue_dict [("k", "info")] = .error .valueError ∧
    re_is_float_search "info" = true ∧ isPyFloat "info" = false := by decide

/-- C5 (amended): type inference is total for every pair list in which any
token matched by the float rule is a valid float literal; the boolean,
integer and string-fallback rules never fail. -/
theorem c5_type_inference_totality (pairs : List (String × String))
    (h : ∀ p ∈ pairs, re_is_float_search p.2 = true → isPyFloat p.2 = true) :
    ∃ d, make_keyvalue_dict pairs = .ok d :=
  make_keyvalue_dict_ok_aux pairs h []

theorem c5_type_inference_totality_witness :
    ∃ d, make_keyvalue_dict
      [("a", "true"), ("b", "xyz"), ("c", "1.5"), ("d", "nan"), ("e", "42")]
        = .ok d :=
  c5_type_inference_totality _ (by decide)

/-- C6: the boolean rule is a prefix match, not an equality test: the token
truex is interpreted as boolean false although it does not case-insensitively
equal true or false. -/
theorem c6_bool_rule_counterexample :
    infer_value "truex" = .ok (.vBool false) ∧
    pyLower "truex" ≠ "true" ∧ pyLower "truex" ≠ "false" := by decide

/-- C6 (amended): a token not matched by the float rule is interpreted as a
boolean if and only if it case-insensitively STARTS WITH true or false, and
the boolean produced is true exactly when the lowercased token equals true. -/
theorem c6_bool_rule (v : String) (hf : re_is_float_search v = false) :
    ((∃ b, infer_value v = .ok (.vBool b)) ↔ re_is_bool_match v = true) ∧
    (re_is_bool_match v = true → infer_value v = .ok (.vBool (pyLower v = "true"))) := by
  constructor
  · constructor
    · intro hb
      by_contra hnb
      have hnb2 : re_is_bool_match v = false := by
        cases h2 : re_is_bool_match v
        · rfl
        · exact absurd h2 hnb
      obtain ⟨b, hb2⟩ := hb
      unfold infer_value at hb2
      rw [hf] at hb2
      simp only [Bool.false_eq_true, if_false, hnb2] at hb2
      cases hpi : pyInt v <;> rw [hpi] at hb2 <;> simp at hb2
    · intro hb
      refine ⟨pyLower v = "true", ?_⟩
      unfold infer_value
      rw [hf, hb]
      simp
  · intro hb
    unfold infer_value
    rw [hf, hb]
    simp

theorem c6_bool_rule_witness :
    (∃ b, infer_value "FalseY" = .ok (.vBool b)) ∧
    infer_value "FalseY" = .ok (.vBool false) := by
  have h := c6_bool_rule "FalseY" (by decide)
  refine ⟨h.1.mpr (by decide), ?_⟩
  have h2 := h.2 (by decide)
  rw [h2]
  decide

/-! ## C9: malformed key-value lines -/

/-- C9: a key with no following value aborts the parse with an error rather
than silently dropping the pair.  In the parameter path the deque popleft
raises (modelled as malformedPair); in the time-series path float of the
empty string raises (modelled as valueError); the spec names both
MalformedPairError. -/
theorem c9_malformed_pair :
    parse_keyvalue_line "BOND = " = .error .malformedPair ∧
    parseTS inpMalformedBlock = .error .valueError := by decide

/-! ## numpy.resize lemmas -/

theorem npResize_length (l : List PyVal) (n : Nat) : (npResize l n).length = n := by
  unfold npResize
  by_cases h : l.isEmpty <;> simp [h]

theorem npResize_take (l : List PyVal) (n : Nat) (h : n ≤ l.length) :
    npResize l n = l.take n := by
  rcases l with _ | ⟨a, l2⟩
  · have h0 : n = 0 := Nat.le_zero.mp h
    subst h0
    simp [npResize]
  · unfold npResize
    simp only [List.isEmpty_cons, Bool.false_eq_true, if_false]
    apply List.ext_getElem?
    intro i
    rw [List.getElem?_map]
    by_cases hi : i < n
    · rw [List.getElem?_range hi, List.getElem?_take_of_lt hi]
      have hil : i < (a :: l2).length := Nat.lt_of_lt_of_le hi h
      have hmod : i % (a :: l2).length = i := Nat.mod_eq_of_lt hil
      rw [Option.map_some']
      rw [List.getD_eq_getElem?_getD, hmod]
      rw [List.getElem?_eq_getElem hil]
      rfl
    · have h1 : (List.range n)[i]? = none := by
        rw [List.getElem?_eq_none]
        simpa using Nat.le_of_not_lt hi
      have h2 : ((a :: l2).take n)[i]? = none := by
        rw [List.getElem?_eq_none]
        simp [Nat.le_of_not_lt hi]
      rw [h1, h2, Option.map_none']

/-! ## C2: summary extraction -/

theorem negIndex_ok (l : List PyVal) (k : Nat) (h : k ≤ l.length) :
    negIndex l k = .ok (l.getD (l.length - k) PyVal.uninit) := by
  simp [negIndex, h]

theorem summaryFold_spec (vars : Dict (List PyVal))
    (h : ∀ p ∈ vars, 2 ≤ p.2.length) :
    ∀ acc, vars.foldlM summaryStep acc = .ok
      (acc.1 ++ vars.map (fun p => (p.1, npResize p.2 (p.2.length - 2))),
       acc.2.1 ++ vars.map (fun p => (p.1, p.2.getD (p.2.length - 2) PyVal.uninit)),
       acc.2.2 ++ vars.map (fun p => (p.1, p.2.getD (p.2.length - 1) PyVal.uninit))) := by
  induction vars with
  | nil => intro acc; simp; rfl
  | cons p ps ih =>
    intro acc
    have hp : 2 ≤ p.2.length := h p (by simp)
    have hps : ∀ q ∈ ps, 2 ≤ q.2.length := fun q hq => h q (by simp [hq])
    rw [List.foldlM_cons]
    have hstep : summaryStep acc p = .ok
        (acc.1 ++ [(p.1, npResize p.2 (p.2.length - 2))],
         acc.2.1 ++ [(p.1, p.2.getD (p.2.length - 2) PyVal.uninit)],
         acc.2.2 ++ [(p.1, p.2.getD (p.2.length - 1) PyVal.uninit)]) := by
      unfold summaryStep
      rw [negIndex_ok p.2 2 hp, negIndex_ok p.2 1 (Nat.le_trans (by norm_num) hp)]
      rfl
    rw [hstep]
    show ps.foldlM summaryStep _ = _
    rw [ih hps]
    simp

/-- C2: the claim is false for arrays with fewer than three entries: the
summary check indexes position -3 without a length guard and raises
IndexError instead of leaving the arrays unchanged with empty summaries. -/
theorem c2_summary_counterexample :
    extractSummary [("NSTEP", [.vInt 1, .vInt 2])] = .error .indexError ∧
    extractSummary [("NSTEP", [.vInt 1, .vInt 2])]
      ≠ .ok ([("NSTEP", [.vInt 1, .vInt 2])], [], []) :=
  ⟨by decide, by decide⟩

theorem extractSummary_triggered (vars : Dict (List PyVal)) (ns : List PyVal)
    (hns : dictLookup vars "NSTEP" = some ns) (h3 : 3 ≤ ns.length)
    (hlen : ∀ p ∈ vars, 2 ≤ p.2.length)
    (heq1 : ns.getD (ns.length - 3) PyVal.uninit = ns.getD (ns.length - 2) PyVal.uninit)
    (heq2 : ns.getD (ns.length - 2) PyVal.uninit = ns.getD (ns.length - 1) PyVal.uninit) :
    extractSummary vars = .ok
      (vars.map (fun p => (p.1, p.2.take (p.2.length - 2))),
       vars.map (fun p => (p.1, p.2.getD (p.2.length - 2) PyVal.uninit)),
       vars.map (fun p => (p.1, p.2.getD (p.2.length - 1) PyVal.uninit))) := by
  unfold extractSummary
  rw [hns]
  show (do
    let a ← negIndex ns 3
    let b ← negIndex ns 2
    let c ← negIndex ns 1
    if a = b ∧ b = c then vars.foldlM summaryStep ([], [], [])
    else pure (vars, [], [])) = _
  rw [negIndex_ok ns 3 h3, negIndex_ok ns 2 (Nat.le_trans (by norm_num) h3),
      negIndex_ok ns 1 (Nat.le_trans (by norm_num) h3)]
  show (if ns.getD (ns.length - 3) PyVal.uninit = ns.getD (ns.length - 2) PyVal.uninit ∧
      ns.getD (ns.length - 2) PyVal.uninit = ns.getD (ns.length - 1) PyVal.uninit then
      vars.foldlM summaryStep ([], [], [])
    else pure (vars, [], [])) = _
  rw [if_pos ⟨heq1, heq2⟩]
  rw [summaryFold_spec vars hlen ([], [], [])]
  simp only [List.nil_append]
  have hmap : List.map (fun p => (p.1, npResize p.2 (p.2.length - 2))) vars =
      List.map (fun p => (p.1, List.take (p.2.length - 2) p.2)) vars := by
    apply List.map_congr_left
    intro p hp
    rw [npResize_take p.2 (p.2.length - 2) (Nat.sub_le _ _)]
  rw [hmap]

theorem extractSummary_not_triggered (vars : Dict (List PyVal)) (ns : List PyVal)
    (hns : dictLookup vars "NSTEP" = some ns) (h3 : 3 ≤ ns.length)
    (hne : ¬(ns.getD (ns.length - 3) PyVal.uninit = ns.getD (ns.length - 2) PyVal.uninit ∧
        ns.getD (ns.length - 2) PyVal.uninit = ns.getD (ns.length - 1) PyVal.uninit)) :
    extractSummary vars = .ok (vars, [], []) := by
  unfold extractSummary
  rw [hns]
  show (do
    let a ← negIndex ns 3
    let b ← negIndex ns 2
    let c ← negIndex ns 1
    if a = b ∧ b = c then vars.foldlM summaryStep ([], [], [])
    else pure (vars, [], [])) = _
  rw [negIndex_ok ns 3 h3, negIndex_ok ns 2 (Nat.le_trans (by norm_num) h3),
      negIndex_ok ns 1 (Nat.le_trans (by norm_num) h3)]
  show (if ns.getD (ns.length - 3) PyVal.uninit = ns.getD (ns.length - 2) PyVal.uninit ∧
      ns.getD (ns.length - 2) PyVal.uninit = ns.getD (ns.length - 1) PyVal.uninit then
      vars.foldlM summaryStep ([], [], [])
    else pure (vars, [], [])) = _
  rw [if_neg hne]
  rfl

theorem extractSummary_keyError (vars : Dict (List PyVal))
    (h : dictLookup vars "NSTEP" = none) :
    extractSummary vars = .error (.keyError "NSTEP") := by
  unfold extractSummary
  rw [h]

theorem extractSummary_indexError (vars : Dict (List PyVal)) (ns : List PyVal)
    (hns : dictLookup vars "NSTEP" = some ns) (h : ns.length < 3) :
    extractSummary vars = .error .indexError := by
  unfold extractSummary
  rw [hns]
  show (do
    let a ← negIndex ns 3
    let b ← negIndex ns 2
    let c ← negIndex ns 1
    if a = b ∧ b = c then vars.foldlM summaryStep ([], [], [])
    else pure (vars, [], [])) = _
  rw [show negIndex ns 3 = Except.error Err.indexError from by
    unfold negIndex
    rw [if_neg (by omega)]]
  rfl

/-- C2 (amended): when the NSTEP array has at least 3 entries and its last
three are pairwise equal, exactly the last two entries of every array are
removed, the removed second-to-last entry becomes the average and the
removed last entry the RMS fluctuation; with at least 3 entries but the test
failing, every array is unchanged and both summary mappings are empty; with
fewer than 3 entries the extractor raises instead (see counterexample). -/
theorem c2_summary_extraction :
    (∀ (vars : Dict (List PyVal)) (ns : List PyVal),
      dictLookup vars "NSTEP" = some ns → 3 ≤ ns.length →
      (∀ p ∈ vars, 2 ≤ p.2.length) →
      ns.getD (ns.length - 3) PyVal.uninit = ns.getD (ns.length - 2) PyVal.uninit →
      ns.getD (ns.length - 2) PyVal.uninit = ns.getD (ns.length - 1) PyVal.uninit →
      extractSummary vars = .ok
        (vars.map (fun p => (p.1, p.2.take (p.2.length - 2))),
         vars.map (fun p => (p.1, p.2.getD (p.2.length - 2) PyVal.uninit)),
         vars.map (fun p => (p.1, p.2.getD (p.2.length - 1) PyVal.uninit)))) ∧
    (∀ (vars : Dict (List PyVal)) (ns : List PyVal),
      dictLookup vars "NSTEP" = some ns → 3 ≤ ns.length →
      ¬(ns.getD (ns.length - 3) PyVal.uninit = ns.getD (ns.length - 2) PyVal.uninit ∧
        ns.getD (ns.length - 2) PyVal.uninit = ns.getD (ns.length - 1) PyVal.uninit) →
      extractSummary vars = .ok (vars, [], [])) :=
  ⟨fun vars ns hns h3 hlen heq1 heq2 =>
      extractSummary_triggered vars ns hns h3 hlen heq1 heq2,
   fun vars ns hns h3 hne => extractSummary_not_triggered vars ns hns h3 hne⟩

theorem c2_summary_extraction_witness :
    extractSummary [("NSTEP", [.vInt 1, .vInt 5, .vInt 5, .vInt 5]),
                    ("A", [.vFloat "1.5", .vFloat "2.5", .vFloat "3.5", .vFloat "4.5"])]
      = .ok ([("NSTEP", [.vInt 1, .vInt 5]), ("A", [.vFloat "1.5", .vFloat "2.5"])],
             [("NSTEP", .vInt 5), ("A", .vFloat "3.5")],
             [("NSTEP", .vInt 5), ("A", .vFloat "4.5")]) := by
  have h := c2_summary_extraction.1
    [("NSTEP", [.vInt 1, .vInt 5, .vInt 5, .vInt 5]),
     ("A", [.vFloat "1.5", .vFloat "2.5", .vFloat "3.5", .vFloat "4.5"])]
    [.vInt 1, .vInt 5, .vInt 5, .vInt 5]
    (by decide) (by decide) (by decide) (by decide) (by decide)
  rw [h]
  decide

/-! ## C4: the parameter section loop -/

theorem simLoop_run (term : String) (trail : List String)
    (hterm : re_new_section term = true) :
    ∀ (body : List String) (l0 : String) (vars : Dict PyVal),
      re_new_section l0 = false →
      (∀ l ∈ body, re_new_section l = false) →
      simLoop vars (l0 :: (body ++ term :: trail)) =
        ((body ++ [term]).foldlM lineUpdate vars).map (fun vs => (vs, term :: trail)) := by
  intro body
  induction body with
  | nil =>
    intro l0 vars hl0 _
    show simLoop vars (l0 :: term :: trail) = _
    rw [show simLoop vars (l0 :: term :: trail) =
        (if re_new_section l0 then .ok (vars, l0 :: term :: trail)
         else do
           let vars2 ← lineUpdate vars term
           simLoop vars2 (term :: trail)) from rfl]
    rw [hl0]
    simp only [List.nil_append, List.foldlM_cons, List.foldlM_nil, Bool.false_eq_true, if_false]
    cases h : lineUpdate vars term with
    | error e => rfl
    | ok v2 =>
      cases trail with
      | nil =>
        show simLoop v2 [term] = _
        rw [show simLoop v2 [term] =
            (if re_new_section term then .ok (v2, [term]) else .ok (v2, [])) from rfl]
        rw [hterm]
        simp [Except.map, Except.bind, Except.pure]
      | cons t tr =>
        show simLoop v2 (term :: t :: tr) = _
        rw [show simLoop v2 (term :: t :: tr) =
            (if re_new_section term then .ok (v2, term :: t :: tr)
             else do
               let vars3 ← lineUpdate v2 t
               simLoop vars3 (t :: tr)) from rfl]
        rw [hterm]
        simp [Except.map, Except.bind, Except.pure]
  | cons b bs ih =>
    intro l0 vars hl0 hbody
    have hb : re_new_section b = false := hbody b (by simp)
    have hbs : ∀ l ∈ bs, re_new_section l = false := fun l hl => hbody l (by simp [hl])
    show simLoop vars (l0 :: b :: (bs ++ term :: trail)) = _
    rw [show simLoop vars (l0 :: b :: (bs ++ term :: trail)) =
        (if re_new_section l0 then .ok (vars, l0 :: b :: (bs ++ term :: trail))
         else do
           let vars2 ← lineUpdate vars b
           simLoop vars2 (b :: (bs ++ term :: trail))) from rfl]
    rw [hl0]
    simp only [Bool.false_eq_true, if_false, List.cons_append, List.foldlM_cons]
    cases h : lineUpdate vars b with
    | error e => rfl
    | ok v2 =>
      have := ih b v2 hb hbs
      exact this

/-- C4: the claim is false: the first line after the section header is read
but never examined for an equals sign, so its pairs are dropped.  Here the
line foo = 42 directly after the header carries an equals sign, yet foo is
absent from the parsed parameters. -/
theorem c4_first_line_counterexample :
    parse_sim_params inpParamsSkip = .ok ([("bar", .vInt 7)], ["   2.  NEXT"]) ∧
    strContains "foo = 42" '=' = true ∧
    dictLookup [("bar", PyVal.vInt 7)] "foo" = none :=
  ⟨by decide, by decide, by decide⟩

/-- C4 (amended): while the section is active the parser applies extraction
and inference to every equals-bearing line EXCEPT the first line after the
section header, which is skipped; lines are folded in order with later keys
overwriting earlier ones; the loop stops at the first generic new-section
header line without consuming it, although that line is itself still
examined (and processed when it contains an equals sign) before the stop. -/
theorem c4_param_section (header l0 term : String) (body trail : List String)
    (hheader : re_sim_params_begin header = true)
    (hl0 : re_new_section l0 = false)
    (hbody : ∀ l ∈ body, re_new_section l = false)
    (hterm : re_new_section term = true) :
    parse_sim_params (header :: l0 :: (body ++ term :: trail)) =
      ((body ++ [term]).foldlM lineUpdate []).map (fun vs => (vs, term :: trail)) := by
  show (if re_sim_params_begin header
      then simLoop [] (l0 :: (body ++ term :: trail))
      else .error .assertError) = _
  rw [hheader]
  simp only [if_true]
  exact simLoop_run term trail hterm body l0 [] hl0 hbody

theorem c4_param_section_witness :
    parse_sim_params inpParamsSkip = .ok ([("bar", .vInt 7)], ["   2.  NEXT"]) := by
  have h := c4_param_section "   1.  CONTROL  DATA  FOR  THE  RUN" "foo = 42"
    "   2.  NEXT" ["bar = 7"] [] (by decide) (by decide) (by decide) (by decide)
  exact h.trans (by decide)

/-! ## C3: the time-series splitter -/

theorem wsCommaLen_le_aux (A B L : Nat) (r2 : List Char) (h1 : A ≤ L)
    (hlen : L - A = r2.length + 1) (h2 : B ≤ r2.length) : A + 1 + B ≤ L := by
  omega

theorem wsCommaLen_le (l : List Char) : wsCommaLen l ≤ l.length := by
  have h1 : (l.takeWhile isPySpace).length ≤ l.length :=
    (List.takeWhile_sublist isPySpace).length_le
  unfold wsCommaLen
  show (match l.drop (l.takeWhile isPySpace).length with
    | ',' :: r2 => (l.takeWhile isPySpace).length + 1 + (r2.takeWhile isPySpace).length
    | _ => (l.takeWhile isPySpace).length) ≤ l.length
  split
  case _ r2 heq =>
    have hlen := congrArg List.length heq
    simp only [List.length_drop, List.length_cons] at hlen
    have h2 : (r2.takeWhile isPySpace).length ≤ r2.length :=
      (List.takeWhile_sublist isPySpace).length_le
    exact wsCommaLen_le_aux _ _ _ r2 h1 hlen h2
  case _ => exact h1

theorem wsCommaLen_pos_head (c : Char) (r : List Char)
    (h : 0 < wsCommaLen (c :: r)) : wsComma c = true := by
  by_cases hc : isPySpace c = true
  · simp [wsComma, hc]
  · by_cases hcomma : c = ','
    · simp [wsComma, hcomma]
    · exfalso
      have hw : (c :: r).takeWhile isPySpace = [] := by
        rw [List.takeWhile_cons]
        simp [hc]
      unfold wsCommaLen at h
      rw [hw] at h
      simp only [List.length_nil, List.drop_zero] at h
      split at h
      case _ r2 heq =>
        cases heq
        exact hcomma rfl
      case _ => exact Nat.lt_irrefl 0 h

theorem get_rev_cons (x : Char) (l r : List Char) :
    (l.reverse ++ x :: r)[l.length]? = some x := by
  rw [List.getElem?_append_right (by simp)]
  simp

theorem splitOk_shape (pre : List Char) (h : splitOk pre = true) :
    ∃ d pre2, pre = d :: pre2 ∧ isPyDigit d = true ∧
      (∀ c pre3, pre2 = c :: pre3 → ¬(c = '-' ∨ isAsciiAlpha c = true)) := by
  cases pre with
  | nil => simp [splitOk] at h
  | cons d pre2 =>
    refine ⟨d, pre2, rfl, ?_, ?_⟩
    · unfold splitOk at h
      exact (Bool.and_eq_true_iff.mp h).1
    · intro c pre3 hp
      subst hp
      unfold splitOk at h
      have h2 := (Bool.and_eq_true_iff.mp h).2
      simp only [Bool.not_eq_true] at h2
      intro hor
      rcases hor with h3 | h3
      · subst h3
        simp at h2
      · rw [h3] at h2
        simp at h2

theorem tsSplitGo_points (fuel : Nat) :
    ∀ (pre cur rest : List Char) (pos : Nat) (orig : List Char),
      rest.length ≤ fuel →
      orig = pre.reverse ++ rest → pos = pre.length →
      ∀ i ∈ (tsSplitGo fuel pre cur rest pos).2, splitPointSpec orig i := by
  induction fuel with
  | zero =>
    intro pre cur rest pos orig hf ho hp i hi
    have hr : rest = [] := List.eq_nil_of_length_eq_zero (Nat.le_zero.mp hf)
    subst hr
    simp [tsSplitGo] at hi
  | succ fuel ih =>
    intro pre cur rest pos orig hf ho hp i hi
    cases rest with
    | nil => simp [tsSplitGo] at hi
    | cons c r =>
      simp only [tsSplitGo] at hi
      by_cases hsplit : (splitOk pre && decide (0 < wsCommaLen (c :: r))) = true
      · rw [if_pos hsplit] at hi
        have hok : splitOk pre = true := (Bool.and_eq_true_iff.mp hsplit).1
        have hk : 0 < wsCommaLen (c :: r) :=
          of_decide_eq_true (Bool.and_eq_true_iff.mp hsplit).2
        have hkle : wsCommaLen (c :: r) ≤ (c :: r).length := wsCommaLen_le _
        simp only [List.mem_cons] at hi
        rcases hi with hi | hi
        · subst hi
          obtain ⟨d, pre2, hpre, hdig, hlook⟩ := splitOk_shape pre hok
          subst hpre
          have horig : orig = pre2.reverse ++ d :: c :: r := by
            rw [ho]
            simp [List.reverse_cons, List.append_assoc]
          refine ⟨⟨d, ?_, hdig⟩, ?_, ⟨c, ?_, wsCommaLen_pos_head c r hk⟩⟩
          · rw [horig, hp]
            simp only [List.length_cons, Nat.add_sub_cancel]
            exact get_rev_cons d pre2 (c :: r)
          · intro c2 h2 hget
            cases pre2 with
            | nil =>
              rw [hp] at h2
              simp at h2
            | cons e pre3 =>
              have horig2 : orig = pre3.reverse ++ e :: d :: c :: r := by
                rw [ho]
                simp [List.reverse_cons, List.append_assoc]
              rw [horig2, hp] at hget
              simp only [List.length_cons] at hget
              rw [show pre3.length + 1 + 1 - 2 = pre3.length from by omega] at hget
              rw [get_rev_cons e pre3 (d :: c :: r)] at hget
              have he : c2 = e := by
                injection hget with h3
                exact h3.symm
              subst he
              exact hlook c2 pre3 rfl
          · rw [ho, hp]
            exact get_rev_cons c (d :: pre2) r
        · refine ih _ _ _ _ orig ?_ ?_ ?_ i hi
          · simp only [List.length_drop]
            simp only [List.length_cons] at hf ⊢
            omega
          · rw [List.reverse_append, List.reverse_reverse, List.append_assoc,
                List.take_append_drop, ho]
          · simp only [List.length_append, List.length_reverse, List.length_take]
            rw [Nat.min_eq_left hkle, hp]
            omega
      · rw [if_neg hsplit] at hi
        refine ih _ _ _ _ orig ?_ ?_ ?_ i hi
        · simp only [List.length_cons] at hf
          omega
        · rw [ho]
          simp [List.reverse_cons, List.append_assoc]
        · simp [hp]

theorem tsSplitPoints_spec (s : List Char) (i : Nat) (hi : i ∈ tsSplitPoints s) :
    splitPointSpec s i :=
  tsSplitGo_points s.length [] [] s 0 s (Nat.le_refl _) rfl rfl i hi

/-- C3: the time-series splitter maps the example line to exactly the
expected ordered pairs, and for any line and any occurrence of the token
1-4 in it, no split point falls inside the token or immediately after it:
the digit-boundary split never fires after a digit preceded by a hyphen. -/
theorem c3_split_timeseries :
    parseBlockLine "BOND   =  913.8125  ANGLE   =  3093.9119" =
      .ok [("BOND", "913.8125"), ("ANGLE", "3093.9119")] ∧
    ∀ (s : List Char) (j : Nat),
      s[j]? = some '1' → s[j + 1]? = some '-' → s[j + 2]? = some '4' →
      j + 1 ∉ tsSplitPoints s ∧ j + 2 ∉ tsSplitPoints s ∧ j + 3 ∉ tsSplitPoints s := by
  refine ⟨by decide, ?_⟩
  intro s j h1 h2 h4
  refine ⟨?_, ?_, ?_⟩
  · intro hmem
    obtain ⟨w, hw, hwc⟩ := (tsSplitPoints_spec s _ hmem).2.2
    rw [h2] at hw
    injection hw with hw2
    rw [← hw2] at hwc
    exact absurd hwc (by decide)
  · intro hmem
    obtain ⟨d, hd, hdig⟩ := (tsSplitPoints_spec s _ hmem).1
    rw [show j + 2 - 1 = j + 1 from by omega] at hd
    rw [h2] at hd
    injection hd with hd2
    rw [← hd2] at hdig
    exact absurd hdig (by decide)
  · intro hmem
    have hlb := (tsSplitPoints_spec s _ hmem).2.1
    rw [show j + 3 - 2 = j + 1 from by omega] at hlb
    exact hlb '-' (by omega) h2 (Or.inl rfl)

theorem c3_split_timeseries_witness :
    2 ∉ tsSplitPoints " 1-4 NB =       -84.7569".data ∧
    3 ∉ tsSplitPoints " 1-4 NB =       -84.7569".data ∧
    4 ∉ tsSplitPoints " 1-4 NB =       -84.7569".data :=
  c3_split_timeseries.2 " 1-4 NB =       -84.7569".data 1
    (by decide) (by decide) (by decide)

/-! ## Lemmas for the block loop -/

theorem dictLookup_mem {α : Type} (d : Dict α) (k : String) (v : α)
    (h : dictLookup d k = some v) : (k, v) ∈ d := by
  induction d with
  | nil => simp [dictLookup] at h
  | cons q d ih =>
    obtain ⟨k1, w⟩ := q
    by_cases hk : k1 = k
    · subst hk
      simp only [dictLookup, eq_self_iff_true, if_true, Option.some.injEq] at h
      subst h
      exact List.mem_cons_self _ _
    · simp only [dictLookup, if_neg hk] at h
      exact List.mem_cons_of_mem _ (ih h)

theorem dictKeys_mem_of_lookup {α : Type} (d : Dict α) (k : String) (v : α)
    (h : dictLookup d k = some v) : k ∈ dictKeys d := by
  have := dictLookup_mem d k v h
  exact List.mem_map.mpr ⟨(k, v), this, rfl⟩

theorem dictLookup_isSome_iff {α : Type} (d : Dict α) (k : String) :
    (dictLookup d k).isSome = true ↔ k ∈ dictKeys d := by
  constructor
  · intro h
    obtain ⟨v, hv⟩ := Option.isSome_iff_exists.mp h
    exact dictKeys_mem_of_lookup d k v hv
  · intro h
    cases hl : dictLookup d k with
    | none => exact absurd ((dictLookup_none_iff d k).mp hl) (by simp [h])
    | some v => rfl

theorem dictKeys_insert_subset {α : Type} (d : Dict α) (k : String) (v : α)
    (k2 : String) (h : k2 ∈ dictKeys d) : k2 ∈ dictKeys (dictInsert d k v) := by
  by_cases hk : k ∈ dictKeys d
  · rw [dictKeys_insert_mem d k v hk]; exact h
  · rw [dictKeys_insert_new d k v hk]; exact List.mem_append_left _ h

theorem setSlot_ok (l : List PyVal) (i : Nat) (v : PyVal) (h : i < l.length) :
    setSlot l i v = .ok (l.set i v) := by
  simp [setSlot, h]

theorem readBlock_append (cfg : Cfg) (bls : List String) :
    ∀ (bv : Dict PyVal) (rest : List String),
      (∀ l ∈ bls, strContains l '=' = true) →
      (rest = [] ∨ ∃ t tr, rest = t :: tr ∧ strContains t '=' = false) →
      readBlock cfg bv (bls ++ rest) =
        (bls.foldlM (blockLineStep cfg) bv).map (fun b => (b, rest)) := by
  induction bls with
  | nil =>
    intro bv rest h hrest
    rcases hrest with rfl | ⟨t, tr, rfl, ht⟩
    · rfl
    · show readBlock cfg bv (t :: tr) = _
      rw [show readBlock cfg bv (t :: tr) =
          (if strContains t '=' = true then do
            let bv2 ← blockLineStep cfg bv t
            readBlock cfg bv2 tr
          else .ok (bv, t :: tr)) from rfl]
      rw [ht]
      rfl
  | cons l ls ih =>
    intro bv rest h hrest
    have hl : strContains l '=' = true := h l (by simp)
    have hls : ∀ l2 ∈ ls, strContains l2 '=' = true := fun l2 h2 => h l2 (by simp [h2])
    show readBlock cfg bv (l :: (ls ++ rest)) = _
    rw [show readBlock cfg bv (l :: (ls ++ rest)) =
        (if strContains l '=' = true then do
          let bv2 ← blockLineStep cfg bv l
          readBlock cfg bv2 (ls ++ rest)
        else .ok (bv, l :: (ls ++ rest))) from rfl]
    rw [hl]
    simp only [if_true, List.foldlM_cons]
    cases hs : blockLineStep cfg bv l with
    | error e => rfl
    | ok bv2 => exact ih bv2 rest hls hrest

theorem createFold_spec (chunk : Nat) (hchunk : 0 < chunk) (bv : Dict PyVal) :
    ∀ acc : Dict (List PyVal),
      (dictKeys acc ++ dictKeys bv).Nodup →
      ∃ vs, bv.foldlM (createStep chunk) acc = .ok vs ∧
        dictKeys vs = dictKeys acc ++ dictKeys bv ∧
        (∀ p ∈ vs, p ∈ acc ∨ p.2.length = chunk) := by
  induction bv with
  | nil =>
    intro acc h
    exact ⟨acc, rfl, by simp [dictKeys], fun p hp => Or.inl hp⟩
  | cons q bv ih =>
    intro acc h
    have hq : q.1 ∉ dictKeys acc := by
      intro hmem
      have hd := (List.nodup_append.mp h).2.2
      exact hd hmem (by simp [dictKeys])
    have hset : setSlot (List.replicate chunk PyVal.uninit) 0 q.2 =
        .ok ((List.replicate chunk PyVal.uninit).set 0 q.2) :=
      setSlot_ok _ _ _ (by simpa using hchunk)
    have hstep : createStep chunk acc q =
        .ok (dictInsert acc q.1 ((List.replicate chunk PyVal.uninit).set 0 q.2)) := by
      unfold createStep
      rw [hset]
      rfl
    have hkeys2 : dictKeys (dictInsert acc q.1 ((List.replicate chunk PyVal.uninit).set 0 q.2))
        = dictKeys acc ++ [q.1] := dictKeys_insert_new _ _ _ hq
    have hnodup2 : (dictKeys (dictInsert acc q.1
        ((List.replicate chunk PyVal.uninit).set 0 q.2)) ++ dictKeys bv).Nodup := by
      rw [hkeys2, List.append_assoc, List.singleton_append]
      simpa [dictKeys] using h
    obtain ⟨vs, hfold, hkeys, hmem⟩ := ih _ hnodup2
    refine ⟨vs, ?_, ?_, ?_⟩
    · rw [List.foldlM_cons, hstep]
      exact hfold
    · rw [hkeys, hkeys2, List.append_assoc, List.singleton_append]
      simp [dictKeys]
    · intro p hp
      rcases hmem p hp with h1 | h1
      · rcases mem_of_dictInsert _ _ _ _ h1 with h2 | h2
        · right
          rw [h2]
          simp
        · left; exact h2
      · right; exact h1

theorem assignFold_ok_mem (n : Nat) (bv : Dict PyVal) :
    ∀ (vs vs2 : Dict (List PyVal)),
      bv.foldlM (assignStep n) vs = .ok vs2 →
      ∀ p ∈ bv, p.1 ∈ dictKeys vs := by
  induction bv with
  | nil => intro vs vs2 _ p hp; simp at hp
  | cons q bv ih =>
    intro vs vs2 h p hp
    rw [List.foldlM_cons] at h
    cases ha : assignStep n vs q with
    | error e =>
      rw [ha] at h
      have h2 : (Except.error e : Except Err (Dict (List PyVal))) = Except.ok vs2 := h
      simp at h2
    | ok vs1 =>
      rw [ha] at h
      have hsome : (dictLookup vs q.1).isSome = true := by
        by_contra hno
        have hnone : dictLookup vs q.1 = none := Option.not_isSome_iff_eq_none.mp hno
        unfold assignStep at ha
        rw [hnone] at ha
        have ha2 : (Except.error (Err.keyError q.1) : Except Err (Dict (List PyVal)))
            = Except.ok vs1 := ha
        simp at ha2
      obtain ⟨arr, harr⟩ := Option.isSome_iff_exists.mp hsome
      have hq1 : q.1 ∈ dictKeys vs := dictKeys_mem_of_lookup _ _ _ harr
      rcases List.mem_cons.mp hp with h1 | h1
      · rw [h1]; exact hq1
      · -- relate keys of vs1 to keys of vs
        unfold assignStep at ha
        rw [harr] at ha
        have ha2 : (do
            let arr2 ← setSlot arr n q.2
            pure (dictInsert vs q.1 arr2)) = Except.ok vs1 := ha
        cases hset : setSlot arr n q.2 with
        | error e =>
          rw [hset] at ha2
          have ha3 : (Except.error e : Except Err (Dict (List PyVal)))
              = Except.ok vs1 := ha2
          simp at ha3
        | ok arr2 =>
          rw [hset] at ha2
          have hv1 : vs1 = dictInsert vs q.1 arr2 := by
            have ha3 : (Except.ok (dictInsert vs q.1 arr2) : Except Err (Dict (List PyVal)))
                = Except.ok vs1 := ha2
            injection ha3 with h2
            exact h2.symm
          have := ih vs1 vs2 h p h1
          rw [hv1, dictKeys_insert_mem vs q.1 arr2 hq1] at this
          exact this

theorem assignFold_spec (n chunk : Nat) (bv : Dict PyVal) :
    ∀ vs : Dict (List PyVal),
      (∀ p ∈ bv, p.1 ∈ dictKeys vs) →
      (∀ p ∈ vs, n + 1 ≤ p.2.length ∧ chunk ≤ p.2.length) →
      ∃ vs2, bv.foldlM (assignStep n) vs = .ok vs2 ∧
        dictKeys vs2 = dictKeys vs ∧
        (∀ p ∈ vs2, n + 1 ≤ p.2.length ∧ chunk ≤ p.2.length) := by
  induction bv with
  | nil => intro vs _ hlen; exact ⟨vs, rfl, rfl, hlen⟩
  | cons q bv ih =>
    intro vs hmem hlen
    have hq : q.1 ∈ dictKeys vs := hmem q (by simp)
    have hsome : (dictLookup vs q.1).isSome = true := (dictLookup_isSome_iff vs q.1).mpr hq
    obtain ⟨arr, harr⟩ := Option.isSome_iff_exists.mp hsome
    have hparr : (q.1, arr) ∈ vs := dictLookup_mem _ _ _ harr
    have harrlen : n + 1 ≤ arr.length ∧ chunk ≤ arr.length := hlen _ hparr
    have hset : setSlot arr n q.2 = .ok (arr.set n q.2) :=
      setSlot_ok arr n q.2 (by omega)
    have hstep : assignStep n vs q = .ok (dictInsert vs q.1 (arr.set n q.2)) := by
      unfold assignStep
      rw [harr]
      show (do
        let arr2 ← setSlot arr n q.2
        pure (dictInsert vs q.1 arr2)) = _
      rw [hset]
      rfl
    have hkeys1 : dictKeys (dictInsert vs q.1 (arr.set n q.2)) = dictKeys vs :=
      dictKeys_insert_mem vs q.1 _ hq
    have hmem1 : ∀ p ∈ bv, p.1 ∈ dictKeys (dictInsert vs q.1 (arr.set n q.2)) := by
      intro p hp
      rw [hkeys1]
      exact hmem p (by simp [hp])
    have hlen1 : ∀ p ∈ dictInsert vs q.1 (arr.set n q.2),
        n + 1 ≤ p.2.length ∧ chunk ≤ p.2.length := by
      intro p hp
      rcases mem_of_dictInsert _ _ _ _ hp with h1 | h1
      · rw [h1]
        simp only [List.length_set]
        exact harrlen
      · exact hlen p h1
    obtain ⟨vs2, hfold, hkeys2, hlen2⟩ := ih _ hmem1 hlen1
    refine ⟨vs2, ?_, hkeys2.trans hkeys1, hlen2⟩
    rw [List.foldlM_cons, hstep]
    exact hfold

theorem mergeBlock_inv (chunk : Nat) (hchunk : 2 ≤ chunk) (K : List String)
    (hnodup : K.Nodup) (vars : Dict (List PyVal)) (n : Nat) (bv : Dict PyVal)
    (hK : dictKeys bv = K) (hinv : VarInv chunk K vars n) :
    ∃ vars2, mergeBlock chunk vars n bv = .ok vars2 ∧ VarInv chunk K vars2 (n + 1) := by
  rcases Nat.eq_zero_or_pos n with hn | hn
  · subst hn
    have hv : vars = [] := hinv.1 rfl
    subst hv
    unfold mergeBlock
    rw [if_neg (by omega)]
    obtain ⟨vs, hfold, hkeys, hmem⟩ := createFold_spec chunk (by omega) bv []
      (by
        have he : dictKeys ([] : Dict (List PyVal)) ++ dictKeys bv = K := by
          rw [hK]
          rfl
        rw [he]
        exact hnodup)
    refine ⟨vs, hfold, fun h0 => absurd h0 (by omega), fun _ => ⟨?_, ?_⟩⟩
    · rw [hkeys, hK]
      rfl
    · intro p hp
      rcases hmem p hp with h1 | h1
      · simp at h1
      · rw [h1]
        omega
  · unfold mergeBlock
    rw [if_pos hn]
    obtain ⟨hkeysv, hlenv⟩ := hinv.2 hn
    have hkeys1 : dictKeys (vars.map (fun p => (p.1, growIfFull n p.2))) = K := by
      rw [← hkeysv]
      simp [dictKeys]
    have hlen1 : ∀ p ∈ vars.map (fun p => (p.1, growIfFull n p.2)),
        n + 1 ≤ p.2.length ∧ chunk ≤ p.2.length := by
      intro p hp
      obtain ⟨q, hqmem, hqe⟩ := List.mem_map.mp hp
      obtain ⟨h1, h2⟩ := hlenv q hqmem
      subst hqe
      show n + 1 ≤ (growIfFull n q.2).length ∧ chunk ≤ (growIfFull n q.2).length
      unfold growIfFull
      by_cases he : q.2.length = n
      · rw [if_pos he, npResize_length]
        omega
      · rw [if_neg he]
        exact ⟨by omega, h2⟩
    have hmem1 : ∀ p ∈ bv, p.1 ∈ dictKeys (vars.map (fun p => (p.1, growIfFull n p.2))) := by
      intro p hp
      rw [hkeys1, ← hK]
      exact List.mem_map.mpr ⟨p, hp, rfl⟩
    obtain ⟨vs2, hfold, hkeys2, hlen2⟩ := assignFold_spec n chunk bv _ hmem1 hlen1
    refine ⟨vs2, hfold, fun h0 => absurd h0 (by omega), fun _ => ⟨hkeys2.trans hkeys1, ?_⟩⟩
    intro p hp
    obtain ⟨h1, h2⟩ := hlen2 p hp
    exact ⟨h1, h2⟩

theorem mergeAll_inv (chunk : Nat) (hchunk : 2 ≤ chunk) (K : List String)
    (hnodup : K.Nodup) (bvs : List (Dict PyVal)) :
    ∀ (vars : Dict (List PyVal)) (n : Nat),
      (∀ bv ∈ bvs, dictKeys bv = K) →
      VarInv chunk K vars n →
      ∃ vars2, mergeAll chunk (vars, n) bvs = .ok (vars2, n + bvs.length) ∧
        VarInv chunk K vars2 (n + bvs.length) := by
  induction bvs with
  | nil =>
    intro vars n _ hinv
    exact ⟨vars, by simp [mergeAll], by simpa using hinv⟩
  | cons bv bvs ih =>
    intro vars n hks hinv
    obtain ⟨v2, hmerge, hinv2⟩ :=
      mergeBlock_inv chunk hchunk K hnodup vars n bv (hks bv (by simp)) hinv
    obtain ⟨vars2, hall, hinv3⟩ := ih v2 (n + 1) (fun b hb => hks b (by simp [hb])) hinv2
    have harith : n + 1 + bvs.length = n + (bv :: bvs).length := by
      simp only [List.length_cons]
      omega
    refine ⟨vars2, ?_, by rw [← harith]; exact hinv3⟩
    rw [show mergeAll chunk (vars, n) (bv :: bvs) = (do
        let v2 ← mergeBlock chunk vars n bv
        mergeAll chunk (v2, n + 1) bvs) from rfl]
    rw [hmerge]
    show mergeAll chunk (v2, n + 1) bvs = _
    rw [hall, harith]

theorem tsLoop_render (cfg : Cfg) (chunk : Nat)
    (hmark : strStartsWith termLine cfg.block_start = false)
    (bs : List (List String × Dict PyVal)) :
    ∀ (fuel : Nat) (vars : Dict (List PyVal)) (n : Nat),
      (∀ b ∈ bs, GoodBlock cfg b) →
      (renderBlocks (bs.map Prod.fst)).length + 1 ≤ fuel →
      tsLoop cfg chunk fuel vars n (renderBlocks (bs.map Prod.fst)) =
        (mergeAll chunk (vars, n) (bs.map Prod.snd)).map
          (fun s => (s.1, s.2, ([] : List String))) := by
  induction bs with
  | nil =>
    intro fuel vars n _ _
    show tsLoop cfg chunk fuel vars n [] = _
    cases fuel <;> rfl
  | cons b bs ih =>
    intro fuel vars n hgood hfuel
    obtain ⟨hne, hstart, hnosec, hall, hfold⟩ := hgood b (by simp)
    obtain ⟨l0, ls, hb1⟩ : ∃ l0 ls, b.1 = l0 :: ls := by
      cases hb : b.1 with
      | nil => exact absurd hb hne
      | cons x xs => exact ⟨x, xs, rfl⟩
    have hstart2 : strStartsWith l0 cfg.block_start = true := by
      rw [hb1] at hstart
      exact hstart
    have hnosec2 : re_new_section l0 = false := by
      rw [hb1] at hnosec
      exact hnosec
    have hlenr : renderBlocks ((b :: bs).map Prod.fst) =
        l0 :: (ls ++ termLine :: renderBlocks (bs.map Prod.fst)) := by
      show b.1 ++ termLine :: renderBlocks (bs.map Prod.fst) = _
      rw [hb1, List.cons_append]
    rw [hlenr]
    rw [hlenr] at hfuel
    simp only [List.length_cons, List.length_append] at hfuel
    cases fuel with
    | zero => omega
    | succ f =>
      rw [show tsLoop cfg chunk (f + 1) vars n
          (l0 :: (ls ++ termLine :: renderBlocks (bs.map Prod.fst))) =
          (if re_new_section l0 = true then
            .ok (vars, n, l0 :: (ls ++ termLine :: renderBlocks (bs.map Prod.fst)))
          else if strStartsWith l0 cfg.block_start = true then do
            let br ← readBlock cfg []
              (l0 :: (ls ++ termLine :: renderBlocks (bs.map Prod.fst)))
            let vars2 ← mergeBlock chunk vars n br.1
            tsLoop cfg chunk f vars2 (n + 1) br.2
          else tsLoop cfg chunk f vars n (ls ++ termLine :: renderBlocks (bs.map Prod.fst)))
          from rfl]
      rw [hnosec2, hstart2]
      simp only [Bool.false_eq_true, if_false, if_true]
      have hall2 : ∀ l ∈ l0 :: ls, strContains l '=' = true := by
        rw [← hb1]
        exact hall
      have hread := readBlock_append cfg (l0 :: ls) []
        (termLine :: renderBlocks (bs.map Prod.fst)) hall2
        (Or.inr ⟨termLine, renderBlocks (bs.map Prod.fst), rfl, by decide⟩)
      rw [List.cons_append] at hread
      rw [hb1] at hfold
      rw [hfold] at hread
      simp only [Except.map] at hread
      rw [hread]
      show (do
        let vars2 ← mergeBlock chunk vars n b.2
        tsLoop cfg chunk f vars2 (n + 1)
          (termLine :: renderBlocks (bs.map Prod.fst))) = _
      rw [show mergeAll chunk (vars, n) ((b :: bs).map Prod.snd) = (do
          let v2 ← mergeBlock chunk vars n b.2
          mergeAll chunk (v2, n + 1) (bs.map Prod.snd)) from rfl]
      cases hm : mergeBlock chunk vars n b.2 with
      | error e => rfl
      | ok v2 =>
        show tsLoop cfg chunk f v2 (n + 1)
            (termLine :: renderBlocks (bs.map Prod.fst)) = _
        cases f with
        | zero => omega
        | succ f2 =>
          rw [show tsLoop cfg chunk (f2 + 1) v2 (n + 1)
              (termLine :: renderBlocks (bs.map Prod.fst)) =
              (if re_new_section termLine = true then
                .ok (v2, n + 1, termLine :: renderBlocks (bs.map Prod.fst))
              else if strStartsWith termLine cfg.block_start = true then do
                let br ← readBlock cfg [] (termLine :: renderBlocks (bs.map Prod.fst))
                let vars2 ← mergeBlock chunk v2 (n + 1) br.1
                tsLoop cfg chunk f2 vars2 (n + 1 + 1) br.2
              else tsLoop cfg chunk f2 v2 (n + 1) (renderBlocks (bs.map Prod.fst)))
              from rfl]
          rw [hmark]
          rw [show re_new_section termLine = false from by decide]
          simp only [Bool.false_eq_true, if_false]
          exact ih f2 v2 (n + 1) (fun q hq => hgood q (by simp [hq])) (by omega)

theorem parse_timeseries_render (cfg : Cfg) (chunk : Nat)
    (hmark : strStartsWith termLine cfg.block_start = false)
    (bs : List (List String × Dict PyVal))
    (hgood : ∀ b ∈ bs, GoodBlock cfg b) :
    parse_timeseries cfg chunk (tsHeader :: renderBlocks (bs.map Prod.fst)) =
      (do
        let s ← mergeAll chunk ([], 0) (bs.map Prod.snd)
        let r ← extractSummary (trimVars s.1 s.2)
        Except.ok (⟨r.1, r.2.1, r.2.2, []⟩ : TSResult)) := by
  rw [show parse_timeseries cfg chunk (tsHeader :: renderBlocks (bs.map Prod.fst)) =
      (if re_time_series_begin tsHeader = true then do
        let r ← tsLoop cfg chunk ((renderBlocks (bs.map Prod.fst)).length + 1) [] 0
          (renderBlocks (bs.map Prod.fst))
        let s ← extractSummary (trimVars r.1 r.2.1)
        Except.ok (⟨s.1, s.2.1, s.2.2, r.2.2⟩ : TSResult)
      else .error .assertError) from rfl]
  rw [show re_time_series_begin tsHeader = true from by decide]
  simp only [if_true]
  rw [tsLoop_render cfg chunk hmark bs _ [] 0 hgood (Nat.le_refl _)]
  cases hall : mergeAll chunk ([], 0) (bs.map Prod.snd) with
  | error e => rfl
  | ok s => rfl

theorem trimVars_keys (vars : Dict (List PyVal)) (n : Nat) :
    dictKeys (trimVars vars n) = dictKeys vars := by
  simp [trimVars, dictKeys]

theorem trimVars_lengths (vars : Dict (List PyVal)) (n : Nat) :
    ∀ p ∈ trimVars vars n, p.2.length = n := by
  intro p hp
  obtain ⟨q, hq, he⟩ := List.mem_map.mp hp
  rw [← he]
  exact npResize_length q.2 n

theorem lookup_of_keys_mem {α : Type} (d : Dict α) (k : String)
    (h : k ∈ dictKeys d) : ∃ v, dictLookup d k = some v ∧ (k, v) ∈ d := by
  have hsome : (dictLookup d k).isSome = true := (dictLookup_isSome_iff d k).mpr h
  obtain ⟨v, hv⟩ := Option.isSome_iff_exists.mp hsome
  exact ⟨v, hv, dictLookup_mem d k v hv⟩

set_option maxRecDepth 400000 in
/-- C1: the claim is false as stated for inputs with fewer than 3 complete
blocks: the hardcoded summary check indexes NSTEP[-3] and raises, so no
TimeSeriesArrays mapping is produced at all (see C10).  Concretely, two
complete blocks sharing the key set NSTEP, A make the parse raise IndexError. -/
theorem c1_counterexample :
    parseTS inpTwoBlocks = .error .indexError := by decide

/-- C1 (amended): for every input whose RESULTS section contains N complete
blocks with N at least 3, all sharing the same key list K containing NSTEP,
the parse produces a mapping with key list exactly K, and all arrays have
the same length: N minus 2 when summary extraction triggers (equivalently,
when the average mapping is nonempty), N otherwise — for every initial
capacity of at least 2, with the growth factor fixed at 1.5 by the code. -/
theorem c1_array_lengths (chunk : Nat) (hchunk : 2 ≤ chunk) (K : List String)
    (hnodup : K.Nodup) (hNK : "NSTEP" ∈ K)
    (bs : List (List String × Dict PyVal)) (hN : 3 ≤ bs.length)
    (hgood : ∀ b ∈ bs, GoodBlock defaultCfg b)
    (hkeys : ∀ b ∈ bs, dictKeys b.2 = K) :
    ∃ r : TSResult,
      parse_timeseries defaultCfg chunk
        (tsHeader :: renderBlocks (bs.map Prod.fst)) = .ok r ∧
      dictKeys r.time_series = K ∧
      ∃ flag : Bool,
        (∀ p ∈ r.time_series, p.2.length = if flag then bs.length - 2 else bs.length) ∧
        (flag = true ↔ r.time_series_averages ≠ []) := by
  have hmark : strStartsWith termLine defaultCfg.block_start = false := by decide
  have hrender := parse_timeseries_render defaultCfg chunk hmark bs hgood
  have hinv0 : VarInv chunk K [] 0 := ⟨fun _ => rfl, fun h => absurd h (by omega)⟩
  obtain ⟨vars, hall, hinv⟩ := mergeAll_inv chunk hchunk K hnodup (bs.map Prod.snd) [] 0
    (fun bv hb => by
      obtain ⟨b, hbm, he⟩ := List.mem_map.mp hb
      rw [← he]
      exact hkeys b hbm)
    hinv0
  rw [List.length_map] at hall hinv
  simp only [Nat.zero_add] at hall hinv
  obtain ⟨hkv, hlv⟩ := hinv.2 (by omega)
  have htrimkeys : dictKeys (trimVars vars bs.length) = K := by
    rw [trimVars_keys, hkv]
  have htrimlen := trimVars_lengths vars bs.length
  obtain ⟨ns, hns, hmemns⟩ := lookup_of_keys_mem (trimVars vars bs.length) "NSTEP"
    (by rw [htrimkeys]; exact hNK)
  have hnsl : ns.length = bs.length := htrimlen _ hmemns
  have hlen2 : ∀ p ∈ trimVars vars bs.length, 2 ≤ p.2.length := by
    intro p hp
    rw [htrimlen p hp]
    omega
  by_cases hcond : ns.getD (ns.length - 3) PyVal.uninit
      = ns.getD (ns.length - 2) PyVal.uninit ∧
      ns.getD (ns.length - 2) PyVal.uninit = ns.getD (ns.length - 1) PyVal.uninit
  · have hex := extractSummary_triggered (trimVars vars bs.length) ns hns
      (by omega) hlen2 hcond.1 hcond.2
    refine ⟨⟨(trimVars vars bs.length).map (fun p => (p.1, p.2.take (p.2.length - 2))),
      (trimVars vars bs.length).map (fun p => (p.1, p.2.getD (p.2.length - 2) PyVal.uninit)),
      (trimVars vars bs.length).map (fun p => (p.1, p.2.getD (p.2.length - 1) PyVal.uninit)),
      []⟩, ?_, ?_, true, ?_, ?_⟩
    · rw [hrender, hall]
      show (do
        let r ← extractSummary (trimVars vars bs.length)
        Except.ok (⟨r.1, r.2.1, r.2.2, []⟩ : TSResult)) = _
      rw [hex]
      rfl
    · show dictKeys (List.map _ (trimVars vars bs.length)) = K
      rw [← htrimkeys]
      simp [dictKeys]
    · intro p hp
      obtain ⟨q, hq, he⟩ := List.mem_map.mp hp
      rw [← he]
      show (q.2.take (q.2.length - 2)).length = _
      rw [List.length_take, htrimlen q hq]
      simp only [if_true]
      omega
    · simp only [true_iff]
      intro hemp
      have : trimVars vars bs.length = [] := List.map_eq_nil_iff.mp hemp
      rw [this] at htrimkeys
      rw [← htrimkeys] at hNK
      simp [dictKeys] at hNK
  · have hex := extractSummary_not_triggered (trimVars vars bs.length) ns hns
      (by omega) hcond
    refine ⟨⟨trimVars vars bs.length, [], [], []⟩, ?_, htrimkeys, false, ?_, ?_⟩
    · rw [hrender, hall]
      show (do
        let r ← extractSummary (trimVars vars bs.length)
        Except.ok (⟨r.1, r.2.1, r.2.2, []⟩ : TSResult)) = _
      rw [hex]
      rfl
    · intro p hp
      simp only [Bool.false_eq_true, if_false]
      exact htrimlen p hp
    · simp

theorem c1_array_lengths_witness :
    ∃ r : TSResult,
      parse_timeseries defaultCfg 2
        (tsHeader :: renderBlocks (c1Blocks.map Prod.fst)) = .ok r ∧
      dictKeys r.time_series = ["NSTEP", "A"] ∧
      ∃ flag : Bool,
        (∀ p ∈ r.time_series,
          p.2.length = if flag then c1Blocks.length - 2 else c1Blocks.length) ∧
        (flag = true ↔ r.time_series_averages ≠ []) :=
  c1_array_lengths 2 (by omega) ["NSTEP", "A"] (by decide) (by decide)
    c1Blocks (by decide) (by decide) (by decide)

/-! ## C10: fewer than three blocks, and the hardcoded NSTEP key -/

/-- C10: the parse never returns normally when the RESULTS section yields
fewer than 3 complete blocks: zero blocks raise KeyError on the missing
NSTEP entry, one or two blocks raise IndexError from the unguarded
NSTEP[-3] access; and the key NSTEP is hardcoded in the summary check, so
any configuration whose blocks carry no NSTEP key raises KeyError however
many blocks there are. -/
theorem c10_too_few_blocks :
    (∀ (chunk : Nat), 2 ≤ chunk → ∀ (K : List String), K.Nodup →
      ∀ (bs : List (List String × Dict PyVal)), bs.length ≤ 2 →
      (∀ b ∈ bs, GoodBlock defaultCfg b) → (∀ b ∈ bs, dictKeys b.2 = K) →
      ("NSTEP" ∈ K ∨ bs.length = 0) →
      parse_timeseries defaultCfg chunk (tsHeader :: renderBlocks (bs.map Prod.fst)) =
        .error (if bs.length = 0 then .keyError "NSTEP" else .indexError)) ∧
    (∀ (cfg : Cfg) (chunk : Nat), 2 ≤ chunk →
      strStartsWith termLine cfg.block_start = false →
      ∀ (K : List String), K.Nodup → "NSTEP" ∉ K →
      ∀ (bs : List (List String × Dict PyVal)),
      (∀ b ∈ bs, GoodBlock cfg b) → (∀ b ∈ bs, dictKeys b.2 = K) →
      parse_timeseries cfg chunk (tsHeader :: renderBlocks (bs.map Prod.fst)) =
        .error (.keyError "NSTEP")) := by
  constructor
  · intro chunk hchunk K hnodup bs hle hgood hkeys hdisj
    have hmark : strStartsWith termLine defaultCfg.block_start = false := by decide
    have hrender := parse_timeseries_render defaultCfg chunk hmark bs hgood
    have hinv0 : VarInv chunk K [] 0 := ⟨fun _ => rfl, fun h => absurd h (by omega)⟩
    obtain ⟨vars, hall, hinv⟩ := mergeAll_inv chunk hchunk K hnodup (bs.map Prod.snd) [] 0
      (fun bv hb => by
        obtain ⟨b, hbm, he⟩ := List.mem_map.mp hb
        rw [← he]
        exact hkeys b hbm)
      hinv0
    rw [List.length_map] at hall hinv
    simp only [Nat.zero_add] at hall hinv
    rw [hrender, hall]
    rcases Nat.eq_zero_or_pos bs.length with h0 | hpos
    · have hvars : vars = [] := hinv.1 h0
      subst hvars
      rw [if_pos h0]
      show (do
        let r ← extractSummary (trimVars [] bs.length)
        Except.ok (⟨r.1, r.2.1, r.2.2, []⟩ : TSResult)) = _
      rw [extractSummary_keyError (trimVars [] bs.length) (by rfl)]
      rfl
    · have hNK : "NSTEP" ∈ K := by
        rcases hdisj with h | h
        · exact h
        · omega
      obtain ⟨hkv, hlv⟩ := hinv.2 hpos
      obtain ⟨ns, hns, hmemns⟩ := lookup_of_keys_mem (trimVars vars bs.length) "NSTEP"
        (by rw [trimVars_keys, hkv]; exact hNK)
      have hnsl : ns.length = bs.length := trimVars_lengths vars bs.length _ hmemns
      rw [if_neg (by omega)]
      show (do
        let r ← extractSummary (trimVars vars bs.length)
        Except.ok (⟨r.1, r.2.1, r.2.2, []⟩ : TSResult)) = _
      rw [extractSummary_indexError (trimVars vars bs.length) ns hns (by omega)]
      rfl
  · intro cfg chunk hchunk hmark K hnodup hNK bs hgood hkeys
    have hrender := parse_timeseries_render cfg chunk hmark bs hgood
    have hinv0 : VarInv chunk K [] 0 := ⟨fun _ => rfl, fun h => absurd h (by omega)⟩
    obtain ⟨vars, hall, hinv⟩ := mergeAll_inv chunk hchunk K hnodup (bs.map Prod.snd) [] 0
      (fun bv hb => by
        obtain ⟨b, hbm, he⟩ := List.mem_map.mp hb
        rw [← he]
        exact hkeys b hbm)
      hinv0
    rw [List.length_map] at hall hinv
    simp only [Nat.zero_add] at hall hinv
    rw [hrender, hall]
    have hnone : dictLookup (trimVars vars bs.length) "NSTEP" = none := by
      rw [dictLookup_none_iff, trimVars_keys]
      rcases Nat.eq_zero_or_pos bs.length with h0 | hpos
      · rw [hinv.1 h0]
        simp [dictKeys]
      · rw [(hinv.2 hpos).1]
        exact hNK
    show (do
      let r ← extractSummary (trimVars vars bs.length)
      Except.ok (⟨r.1, r.2.1, r.2.2, []⟩ : TSResult)) = _
    rw [extractSummary_keyError _ hnone]
    rfl

theorem c10_too_few_blocks_witness :
    parse_timeseries defaultCfg 2 (tsHeader :: renderBlocks (c10OneBlock.map Prod.fst)) =
      .error .indexError ∧
    parse_timeseries fooCfg 2 (tsHeader :: renderBlocks (fooBlocks.map Prod.fst)) =
      .error (.keyError "NSTEP") :=
  ⟨(c10_too_few_blocks.1 2 (by omega) ["NSTEP", "A"] (by decide) c10OneBlock
      (by decide) (by decide) (by decide) (Or.inl (by decide))).trans (by decide),
   c10_too_few_blocks.2 fooCfg 2 (by omega) (by decide) ["FOO", "A"] (by decide)
      (by decide) fooBlocks (by decide) (by decide)⟩

/-! ## C7: schema changes between blocks -/

set_option maxRecDepth 400000 in
/-- C7: the claim is false: a later block MISSING a key of the first block
is merged silently, leaving the uninitialised slot value in that key's
array, and the parse returns normally.  Here block two has no key A, yet
the parse succeeds with a stale placeholder at slot 1 of A. -/
theorem c7_counterexample :
    parseTS inpMissingKey = .ok
      ⟨[("NSTEP", [.vInt 1, .vInt 2, .vInt 3]),
        ("A", [.vFloat "2.5", .uninit, .vFloat "4.5"])], [], [], []⟩ := by decide

set_option maxRecDepth 400000 in
/-- C7 (amended): of the two key-set mismatch directions, only a NEW key in
a later block surfaces an error (KeyError on the missing array); a key
MISSING from a later block is merged silently, leaving stale storage in the
slot, with no error surfaced. -/
theorem c7_schema_mismatch :
    (∀ (chunk n : Nat) (vars : Dict (List PyVal)) (bv : Dict PyVal),
      0 < n → (∃ p ∈ bv, p.1 ∉ dictKeys vars) →
      ∃ e, mergeBlock chunk vars n bv = .error e) ∧
    parseTS inpNewKey = .error (.keyError "B") ∧
    (∃ r, parseTS inpMissingKey = .ok r ∧
      dictLookup r.time_series "A" = some [.vFloat "2.5", .uninit, .vFloat "4.5"]) := by
  refine ⟨?_, by decide, ?_⟩
  · intro chunk n vars bv hn hex
    obtain ⟨p, hp, hnot⟩ := hex
    cases hm : mergeBlock chunk vars n bv with
    | error e => exact ⟨e, rfl⟩
    | ok vs2 =>
      exfalso
      unfold mergeBlock at hm
      rw [if_pos hn] at hm
      have hmem := assignFold_ok_mem n bv _ vs2 hm p hp
      rw [show dictKeys (vars.map fun q => (q.1, growIfFull n q.2)) = dictKeys vars from by
        simp [dictKeys]] at hmem
      exact hnot hmem
  · exact ⟨⟨[("NSTEP", [.vInt 1, .vInt 2, .vInt 3]),
      ("A", [.vFloat "2.5", .uninit, .vFloat "4.5"])], [], [], []⟩, by decide, by decide⟩

theorem c7_schema_mismatch_witness :
    ∃ e, mergeBlock 4 [("NSTEP", [PyVal.vInt 1, PyVal.uninit])] 1
      [("B", PyVal.vInt 2)] = .error e :=
  c7_schema_mismatch.1 4 1 [("NSTEP", [PyVal.vInt 1, PyVal.uninit])]
    [("B", PyVal.vInt 2)] (by omega) ⟨("B", PyVal.vInt 2), by decide, by decide⟩

/-! ## C8: blocks cut off by end of stream -/

set_option maxRecDepth 400000 in
/-- C8: the claim is false: a block whose start marker was seen but that
never meets a terminating line before end-of-stream is NOT discarded.  Here
the third block runs to EOF; its values appear in the arrays and it counts
toward the block count. -/
theorem c8_counterexample :
    parseTS inpOpenBlock = .ok
      ⟨[("NSTEP", [.vInt 1, .vInt 2, .vInt 3]),
        ("A", [.vFloat "2.5", .vFloat "3.5", .vFloat "4.5"])], [], [], []⟩ := by decide

/-- C8 (amended): end of stream terminates an open block exactly like a
line without an equals sign: the pairs read so far are merged into the
arrays and the block counts toward the completed-block count. -/
theorem c8_open_block :
    (∀ (cfg : Cfg) (bv : Dict PyVal) (bls : List String) (t : String) (tr : List String),
      (∀ l ∈ bls, strContains l '=' = true) → strContains t '=' = false →
      readBlock cfg bv (bls ++ t :: tr) =
        (readBlock cfg bv bls).map (fun p => (p.1, t :: tr))) ∧
    (∀ (cfg : Cfg) (chunk fuel n : Nat) (vars : Dict (List PyVal)) (l0 : String)
       (ls : List String),
      (∀ l ∈ l0 :: ls, strContains l '=' = true) →
      re_new_section l0 = false → strStartsWith l0 cfg.block_start = true →
      tsLoop cfg chunk (fuel + 1) vars n (l0 :: ls) =
        (do
          let br ← readBlock cfg [] (l0 :: ls)
          let v2 ← mergeBlock chunk vars n br.1
          Except.ok (v2, n + 1, ([] : List String)))) := by
  constructor
  · intro cfg bv bls t tr hall ht
    have h1 := readBlock_append cfg bls bv (t :: tr) hall (Or.inr ⟨t, tr, rfl, ht⟩)
    have h2 := readBlock_append cfg bls bv [] hall (Or.inl rfl)
    rw [List.append_nil] at h2
    rw [h1, h2]
    cases hf : bls.foldlM (blockLineStep cfg) bv <;> rfl
  · intro cfg chunk fuel n vars l0 ls hall hnosec hstart
    rw [show tsLoop cfg chunk (fuel + 1) vars n (l0 :: ls) =
        (if re_new_section l0 = true then .ok (vars, n, l0 :: ls)
        else if strStartsWith l0 cfg.block_start = true then do
          let br ← readBlock cfg [] (l0 :: ls)
          let vars2 ← mergeBlock chunk vars n br.1
          tsLoop cfg chunk fuel vars2 (n + 1) br.2
        else tsLoop cfg chunk fuel vars n ls) from rfl]
    rw [hnosec, hstart]
    simp only [Bool.false_eq_true, if_false, if_true]
    have hread := readBlock_append cfg (l0 :: ls) [] [] hall (Or.inl rfl)
    rw [List.append_nil] at hread
    rw [hread]
    cases hf : (l0 :: ls).foldlM (blockLineStep cfg) [] with
    | error e => rfl
    | ok bv2 =>
      show (do
        let vars2 ← mergeBlock chunk vars n bv2
        tsLoop cfg chunk fuel vars2 (n + 1) ([] : List String)) =
        (do
          let v2 ← mergeBlock chunk vars n bv2
          Except.ok (v2, n + 1, ([] : List String)))
      cases hm : mergeBlock chunk vars n bv2 with
      | error e => rfl
      | ok v2 => cases fuel <;> rfl

theorem c8_open_block_witness :
    readBlock defaultCfg [] ([" NSTEP = 1 A = 2.5"] ++ "----" :: []) =
      (readBlock defaultCfg [] [" NSTEP = 1 A = 2.5"]).map (fun p => (p.1, ["----"])) ∧
    tsLoop defaultCfg 4 1 [] 0 [" NSTEP = 1 A = 2.5"] =
      (do
        let br ← readBlock defaultCfg [] [" NSTEP = 1 A = 2.5"]
        let v2 ← mergeBlock 4 [] 0 br.1
        Except.ok (v2, 0 + 1, ([] : List String))) :=
  ⟨c8_open_block.1 defaultCfg [] [" NSTEP = 1 A = 2.5"] "----" [] (by decide) (by decide),
   c8_open_block.2 defaultCfg 4 0 0 [] " NSTEP = 1 A = 2.5" [] (by decide)
     (by decide) (by decide)⟩

end ReadMdout
